import Mathlib

/-!
Shallow embedding of the point-cloud classification model defined in
`sgp_dl_tutorial.ipynb`: the `PointNetLayer` message-passing layer (PyTorch
Geometric `MessagePassing` with `aggr='max'`) and the `PointNet` network
(two `PointNetLayer`s with ReLU, `global_max_pool` segmented by the batch
vector, and a final `Linear` classifier).

Tensors are modelled as lists of rows over `ℚ`; a `[N, C]` tensor is a list
of `N` vectors.  Fallible framework operations (shape mismatches, edge
indices out of range, negative allocation sizes) are modelled with `Option`:
`none` stands for the runtime error PyTorch raises.
-/

namespace PointNetSpec

/-- A dense vector (one row of a 2-D tensor). -/
abbrev Vec := List ℚ

/-- Elementwise subtraction, `a - b` (torch broadcasting not needed: the code
only subtracts position rows of equal length). -/
def vsub (a b : Vec) : Vec := List.zipWith (· - ·) a b

/-- Elementwise maximum of two vectors (one step of `scatter_reduce(amax)`). -/
def vmax (a b : Vec) : Vec := List.zipWith max a b

/-- Elementwise rectified linear unit, `Tensor.relu` / `torch.nn.ReLU`. -/
def reluV (x : Vec) : Vec := x.map (fun a => max a 0)

/-- Dot product of a weight row with an input vector. -/
def dot (w x : Vec) : ℚ := (List.zipWith (· * ·) w x).sum

/-- Model of `torch.nn.Linear`: learned weight matrix (`out_features` rows of length
`in_features`) and bias vector (length `out_features`). -/
structure Linear where
  weight : List Vec
  bias : Vec
deriving Repr, DecidableEq

/-- Apply a linear layer: `y = W x + b`, one output entry per weight row. -/
def Linear.apply (l : Linear) (x : Vec) : Vec :=
  List.zipWith (fun w b => dot w x + b) l.weight l.bias

/-- The layer has weight shape `[outF, inF]` and bias shape `[outF]`. -/
def Linear.hasShape (l : Linear) (inF outF : Nat) : Prop :=
  l.weight.length = outF ∧ (∀ w ∈ l.weight, w.length = inF) ∧ l.bias.length = outF

instance (l : Linear) (inF outF : Nat) : Decidable (l.hasShape inF outF) := by
  unfold Linear.hasShape; infer_instance

/-- The `Sequential(Linear(in_channels + 3, out_channels), ReLU(),
Linear(out_channels, out_channels))` message network of `PointNetLayer`. -/
structure MLP where
  lin1 : Linear
  lin2 : Linear
deriving Repr, DecidableEq

/-- Apply the sequential network: second linear after ReLU after first linear. -/
def MLP.apply (m : MLP) (x : Vec) : Vec :=
  m.lin2.apply (reluV (m.lin1.apply x))

/-- Model of `PointNetLayer`: message passing with max aggregation; its only learned
state is the message MLP (`self.mlp`). -/
structure PointNetLayer where
  mlp : MLP
deriving Repr, DecidableEq

/-- Output dimensionality of the layer: row count of the second linear's
weight, i.e. `out_channels` of `Linear(out_channels, out_channels)`. -/
def PointNetLayer.outDim (L : PointNetLayer) : Nat := L.mlp.lin2.weight.length

/-- Model of `PointNetLayer.message`: for an edge with source `j` and destination `i`,
`self.mlp(torch.cat([h_j, pos_j - pos_i], dim=-1))`. -/
def PointNetLayer.message (L : PointNetLayer) (h pos : List Vec) (j i : Nat) : Vec :=
  L.mlp.apply (h.getD j [] ++ vsub (pos.getD j []) (pos.getD i []))

/-- One step of `scatter_reduce_(amax, include_self=False)` on one output
slot: the first message overwrites the (untouched-zero) slot, later messages
combine by elementwise max.  `none` is an untouched slot. -/
def scatterMax (acc : Option Vec) (v : Vec) : Option Vec :=
  match acc with
  | none => some v
  | some a => some (vmax a v)

/-- Max aggregation of the message list scattered onto one destination slot:
the genuine elementwise maximum when at least one message arrives, and the
zero-filled default `d` (from `new_zeros`) when none does. -/
def aggrMax (d : Vec) (msgs : List Vec) : Vec :=
  (msgs.foldl scatterMax none).getD d

/-- All edge endpoints are valid point indices, `0 ≤ index < n`; PyTorch
raises an index-out-of-range error on the gather otherwise. -/
def validEdges (n : Nat) (edges : List (Nat × Nat)) : Bool :=
  edges.all (fun e => decide (e.1 < n) && decide (e.2 < n))

/-- The aggregated output row for destination point `i`: elementwise max of
the messages of all edges whose destination is `i`. -/
def PointNetLayer.rowOut (L : PointNetLayer) (h pos : List Vec)
    (edges : List (Nat × Nat)) (i : Nat) : Vec :=
  aggrMax (List.replicate L.outDim 0)
    ((edges.filter (fun e => e.2 == i)).map (fun e => L.message h pos e.1 e.2))

/-- Model of `PointNetLayer.forward(h, pos, edge_index) = self.propagate(edge_index,
h=h, pos=pos)`: the framework checks that the node tensors agree on the point
count and that every edge index is in range (raising otherwise, modelled by
`none`), then scatters the per-edge messages by destination with max
aggregation into an `[N, out_channels]` zero-initialised output. -/
def PointNetLayer.forward (L : PointNetLayer) (h pos : List Vec)
    (edges : List (Nat × Nat)) : Option (List Vec) :=
  if h.length = pos.length ∧ validEdges h.length edges = true then
    some ((List.range h.length).map (L.rowOut h pos edges))
  else none

/-- Model of `torch_geometric.nn.global_max_pool(h, batch)`: one pooled row per object
id in `0 .. batch.max()`, each the elementwise max of the feature rows of the
points carrying that id (zero-filled for an id with no points). `dim` is the
static column count of `h`. -/
def globalMaxPool (dim : Nat) (h : List Vec) (batch : List Nat) : List Vec :=
  (List.range (batch.foldl max 0 + 1)).map (fun b =>
    aggrMax (List.replicate dim 0)
      (((batch.zip h).filter (fun p => p.1 == b)).map Prod.snd))

/-- The `PointNet` model: two `PointNetLayer`s, the final classifier, and the
`torch.nn.Module` training-mode flag (toggled by `model.train()` /
`model.eval()`; no submodule of this model reads it). -/
structure PointNet where
  conv1 : PointNetLayer
  conv2 : PointNetLayer
  classifier : Linear
  training : Bool
deriving Repr, DecidableEq

/-- The first stage of `PointNet.forward`: `h = conv1(h=pos, pos=pos,
edge_index).relu()` then `h = conv2(h=h, pos=pos, edge_index).relu()`. -/
def PointNet.pointFeatures (m : PointNet) (pos : List Vec)
    (edges : List (Nat × Nat)) : Option (List Vec) :=
  (m.conv1.forward pos pos edges).bind fun h1 =>
    (m.conv2.forward (h1.map reluV) pos edges).map fun h2 => h2.map reluV

/-- Model of `PointNet.forward(pos, edge_index, batch)`: two message-passing layers
with ReLU, global max pooling segmented by `batch`, then the linear
classifier applied to each pooled row.  The batch vector must have one entry
per point and be nonempty (`batch.max()` on an empty tensor raises). -/
def PointNet.forward (m : PointNet) (pos : List Vec) (edges : List (Nat × Nat))
    (batch : List Nat) : Option (List Vec) :=
  if batch.length = pos.length ∧ 0 < batch.length then
    (m.pointFeatures pos edges).map fun h2r =>
      (globalMaxPool m.conv2.outDim h2r batch).map m.classifier.apply
  else none

/-- Model of `torch.nn.Linear(in_features, out_features)` construction: allocates a
`[out_features, in_features]` weight and `[out_features]` bias.  PyTorch
rejects a negative dimension size at allocation time and accepts zero; the
framework's random initial values are abstracted by `wInit` / `bInit`. -/
def linearNew (wInit : Nat → Nat → ℚ) (bInit : Nat → ℚ)
    (inF outF : Int) : Option Linear :=
  if inF < 0 ∨ outF < 0 then none
  else some
    { weight := (List.range outF.toNat).map fun r =>
        (List.range inF.toNat).map (wInit r)
      bias := (List.range outF.toNat).map bInit }

/-- Model of `PointNetLayer.__init__(in_channels, out_channels)`: builds
`Sequential(Linear(in_channels + 3, out_channels), ReLU(),
Linear(out_channels, out_channels))`.  No validation of its own; it fails
exactly when a `Linear` allocation fails. -/
def PointNetLayer.new (w1 : Nat → Nat → ℚ) (b1 : Nat → ℚ)
    (w2 : Nat → Nat → ℚ) (b2 : Nat → ℚ)
    (inChannels outChannels : Int) : Option PointNetLayer :=
  match linearNew w1 b1 (inChannels + 3) outChannels,
        linearNew w2 b2 outChannels outChannels with
  | some l1, some l2 => some ⟨⟨l1, l2⟩⟩
  | _, _ => none

/-- Model of `PointNet.__init__()`: `conv1 = PointNetLayer(3, 32)`, `conv2 =
PointNetLayer(32, 32)`, `classifier = Linear(32, num_classes)`; a module
starts in training mode.  No validation of its own. -/
def PointNet.new (w1 : Nat → Nat → ℚ) (b1 : Nat → ℚ) (w2 : Nat → Nat → ℚ)
    (b2 : Nat → ℚ) (w3 : Nat → Nat → ℚ) (b3 : Nat → ℚ) (w4 : Nat → Nat → ℚ)
    (b4 : Nat → ℚ) (wc : Nat → Nat → ℚ) (bc : Nat → ℚ)
    (numClasses : Int) : Option PointNet :=
  match PointNetLayer.new w1 b1 w2 b2 3 32,
        PointNetLayer.new w3 b3 w4 b4 32 32,
        linearNew wc bc 32 numClasses with
  | some c1, some c2, some cl => some ⟨c1, c2, cl, true⟩
  | _, _, _ => none

/-- Model of `model.train()`: set the training-mode flag. -/
def PointNet.trainMode (m : PointNet) : PointNet := { m with training := true }

/-- Model of `model.eval()`: clear the training-mode flag. -/
def PointNet.evalMode (m : PointNet) : PointNet := { m with training := false }

/-- The layer's two linears have the shapes `PointNetLayer(inC, outC)`
allocates: `Linear(inC + 3, outC)` then `Linear(outC, outC)`. -/
def PointNetLayer.hasShape (L : PointNetLayer) (inC outC : Nat) : Prop :=
  L.mlp.lin1.hasShape (inC + 3) outC ∧ L.mlp.lin2.hasShape outC outC

instance (L : PointNetLayer) (inC outC : Nat) :
    Decidable (L.hasShape inC outC) := by
  unfold PointNetLayer.hasShape; infer_instance

/-- Predicate: `m` is an `[rows, cols]` matrix: `rows` rows, each of length `cols`. -/
def isMatrix (m : List Vec) (rows cols : Nat) : Prop :=
  m.length = rows ∧ ∀ r ∈ m, r.length = cols

instance (m : List Vec) (rows cols : Nat) : Decidable (isMatrix m rows cols) := by
  unfold isMatrix; infer_instance

/-! ### Helper lemmas -/

theorem length_vsub (a b : Vec) : (vsub a b).length = min a.length b.length :=
  List.length_zipWith _ _ _

theorem length_vmax (a b : Vec) : (vmax a b).length = min a.length b.length :=
  List.length_zipWith _ _ _

theorem length_reluV (x : Vec) : (reluV x).length = x.length :=
  List.length_map _ _

theorem Linear.length_apply (l : Linear) (x : Vec) :
    (l.apply x).length = min l.weight.length l.bias.length :=
  List.length_zipWith _ _ _

theorem Linear.length_apply_of_shape {l : Linear} {inF outF : Nat}
    (hs : l.hasShape inF outF) (x : Vec) : (l.apply x).length = outF := by
  rw [Linear.length_apply, hs.1, hs.2.2, Nat.min_self]

theorem vmax_comm (a b : Vec) : vmax a b = vmax b a := by
  unfold vmax
  rw [List.zipWith_comm]
  exact congrFun (congrFun (congrArg _ (funext fun x => funext fun y => max_comm y x)) b) a

theorem vmax_assoc (a b c : Vec) : vmax (vmax a b) c = vmax a (vmax b c) := by
  induction a generalizing b c with
  | nil => rfl
  | cons x a ih =>
    cases b with
    | nil => rfl
    | cons y b =>
      cases c with
      | nil => rfl
      | cons z c =>
        have htail := ih b c
        simp only [vmax, List.zipWith_cons_cons] at htail ⊢
        rw [max_assoc, htail]

theorem scatterMax_rightComm (acc : Option Vec) (x y : Vec) :
    scatterMax (scatterMax acc x) y = scatterMax (scatterMax acc y) x := by
  cases acc with
  | none => simp only [scatterMax, vmax_comm]
  | some a => simp only [scatterMax, vmax_assoc, vmax_comm x y]

theorem foldl_perm_of_rightComm {α β : Type _} {f : β → α → β}
    (hf : ∀ b x y, f (f b x) y = f (f b y) x) {l₁ l₂ : List α}
    (p : l₁.Perm l₂) : ∀ b, l₁.foldl f b = l₂.foldl f b := by
  induction p with
  | nil => intro b; rfl
  | cons x _ ih => intro b; simp only [List.foldl_cons]; exact ih _
  | swap x y l => intro b; simp only [List.foldl_cons]; rw [hf]
  | trans _ _ ih₁ ih₂ => intro b; rw [ih₁ b, ih₂ b]

theorem aggrMax_perm (d : Vec) {ms₁ ms₂ : List Vec} (p : ms₁.Perm ms₂) :
    aggrMax d ms₁ = aggrMax d ms₂ := by
  unfold aggrMax
  rw [foldl_perm_of_rightComm scatterMax_rightComm p]

theorem foldl_scatterMax_isSome :
    ∀ (ms : List Vec) (a : Vec), ∃ b, ms.foldl scatterMax (some a) = some b := by
  intro ms
  induction ms with
  | nil => intro a; exact ⟨a, rfl⟩
  | cons m ms ih => intro a; simpa only [List.foldl_cons, scatterMax] using ih (vmax a m)

theorem foldl_scatterMax_length {k : Nat} :
    ∀ (ms : List Vec) (acc : Option Vec), (∀ v ∈ ms, v.length = k) →
      (∀ a, acc = some a → a.length = k) →
      ∀ b, ms.foldl scatterMax acc = some b → b.length = k := by
  intro ms
  induction ms with
  | nil => intro acc _ hacc b hb; exact hacc b hb
  | cons m ms ih =>
    intro acc hms hacc b hb
    simp only [List.foldl_cons] at hb
    refine ih (scatterMax acc m) (fun v hv => hms v (List.mem_cons_of_mem _ hv)) ?_ b hb
    intro a ha
    cases acc with
    | none =>
      simp only [scatterMax, Option.some.injEq] at ha
      rw [← ha]; exact hms m (List.mem_cons_self m ms)
    | some a0 =>
      simp only [scatterMax, Option.some.injEq] at ha
      rw [← ha, length_vmax, hacc a0 rfl, hms m (List.mem_cons_self m ms), Nat.min_self]

theorem aggrMax_length {k : Nat} {d : Vec} (hd : d.length = k) {ms : List Vec}
    (hm : ∀ v ∈ ms, v.length = k) : (aggrMax d ms).length = k := by
  unfold aggrMax
  cases hfold : ms.foldl scatterMax none with
  | none => simpa using hd
  | some b =>
    simpa using foldl_scatterMax_length ms none hm (fun a ha => by cases ha) b hfold

theorem getD_map_range {α : Type _} (f : Nat → α) {n k : Nat} (hk : k < n) (d : α) :
    ((List.range n).map f).getD k d = f k := by
  have hk' : k < ((List.range n).map f).length := by
    simpa [List.length_map, List.length_range] using hk
  rw [List.getD_eq_getElem _ _ hk', List.getElem_map, List.getElem_range]

theorem mem_getD {α : Type _} {l : List α} {k : Nat} (hk : k < l.length) (d : α) :
    l.getD k d ∈ l := by
  rw [List.getD_eq_getElem _ _ hk]
  exact List.getElem_mem hk

/-! ### Concrete instances used by the witnesses -/

/-- A small deterministic linear layer: all weights 1, all biases 0. -/
def constLin (inF outF : Nat) : Linear :=
  { weight := List.replicate outF (List.replicate inF 1)
    bias := List.replicate outF 0 }

/-- A concrete `PointNetLayer(3, 2)` (so `Linear(6, 2)` then `Linear(2, 2)`). -/
def demoLayer : PointNetLayer := ⟨⟨constLin 6 2, constLin 2 2⟩⟩

/-- A concrete two-point feature matrix. -/
def wH : List Vec := [[1, 0, 0], [0, 1, 0]]

/-- A concrete two-point position matrix. -/
def wPos : List Vec := [[0, 0, 0], [1, 1, 1]]

/-- A concrete valid edge list on two points. -/
def wEdges : List (Nat × Nat) := [(0, 1), (1, 0)]

/-! ### C1 -/

/-- C1: for an edge `(j, i)` of the edge list, the layer's message is built by
concatenating `h_j` with `pos_j - pos_i` (a vector of length
`in_channels + 3`) and feeding it through the two-layer network
`Linear(in_channels + 3, out_channels) → ReLU → Linear(out_channels,
out_channels)`, whose hidden layer has `out_channels` units. -/
theorem c1_message_structure (L : PointNetLayer) (inC outC : Nat)
    (h pos : List Vec) (edges : List (Nat × Nat)) (j i : Nat)
    (hL : L.hasShape inC outC)
    (hh : ∀ r ∈ h, r.length = inC) (hp : ∀ r ∈ pos, r.length = 3)
    (hmem : (j, i) ∈ edges) (hv : validEdges h.length edges = true)
    (hlen : h.length = pos.length) :
    (h.getD j [] ++ vsub (pos.getD j []) (pos.getD i [])).length = inC + 3 ∧
    L.message h pos j i =
      L.mlp.lin2.apply (reluV (L.mlp.lin1.apply
        (h.getD j [] ++ vsub (pos.getD j []) (pos.getD i [])))) ∧
    (L.mlp.lin1.apply
      (h.getD j [] ++ vsub (pos.getD j []) (pos.getD i []))).length = outC := by
  rw [validEdges, List.all_eq_true] at hv
  have he := hv (j, i) hmem
  simp only [Bool.and_eq_true, decide_eq_true_eq] at he
  have hj : j < h.length := he.1
  have hi : i < h.length := he.2
  have hhj : (h.getD j []).length = inC := hh _ (mem_getD hj [])
  have hpj : (pos.getD j []).length = 3 := hp _ (mem_getD (hlen ▸ hj) [])
  have hpi : (pos.getD i []).length = 3 := hp _ (mem_getD (hlen ▸ hi) [])
  refine ⟨?_, rfl, Linear.length_apply_of_shape hL.1 _⟩
  rw [List.length_append, length_vsub, hhj, hpj, hpi, Nat.min_self]

/-- Witness for C1: a concrete two-point cloud through `demoLayer`. -/
theorem c1_message_structure_witness :
    demoLayer.hasShape 3 2 ∧ validEdges wH.length wEdges = true ∧
    ((wH.getD 0 [] ++ vsub (wPos.getD 0 []) (wPos.getD 1 [])).length = 3 + 3 ∧
     demoLayer.message wH wPos 0 1 =
       demoLayer.mlp.lin2.apply (reluV (demoLayer.mlp.lin1.apply
         (wH.getD 0 [] ++ vsub (wPos.getD 0 []) (wPos.getD 1 [])))) ∧
     (demoLayer.mlp.lin1.apply
       (wH.getD 0 [] ++ vsub (wPos.getD 0 []) (wPos.getD 1 []))).length = 2) :=
  ⟨by decide, by decide,
   c1_message_structure demoLayer 3 2 wH wPos wEdges 0 1 (by decide) (by decide)
     (by decide) (by decide) (by decide) (by decide)⟩

/-! ### C4 -/

/-- C4: if any edge references a point index outside `[0, N)` (with `N` the
number of rows of `h`), `PointNetLayer.forward` fails with an error (`none`)
and produces no result: indices are never truncated or wrapped. -/
theorem c4_out_of_range_rejected (L : PointNetLayer) (h pos : List Vec)
    (edges : List (Nat × Nat)) (e : Nat × Nat) (hmem : e ∈ edges)
    (hout : h.length ≤ e.1 ∨ h.length ≤ e.2) :
    L.forward h pos edges = none := by
  unfold PointNetLayer.forward
  rw [if_neg]
  rintro ⟨-, hv⟩
  rw [validEdges, List.all_eq_true] at hv
  have he := hv e hmem
  simp only [Bool.and_eq_true, decide_eq_true_eq] at he
  omega

/-- Witness for C4: an edge referencing index 2 on a two-point cloud. -/
theorem c4_out_of_range_rejected_witness :
    (0, 2) ∈ [((0 : Nat), (2 : Nat))] ∧ wH.length ≤ 2 ∧
    demoLayer.forward wH wPos [(0, 2)] = none :=
  ⟨by decide, by decide,
   c4_out_of_range_rejected demoLayer wH wPos [(0, 2)] (0, 2) (by decide)
     (Or.inr (by decide))⟩

/-! ### C5 -/

/-- Construction of `torch.nn.Linear` fails exactly for a negative dimension. -/
theorem linearNew_eq_none (w : Nat → Nat → ℚ) (b : Nat → ℚ) (inF outF : Int) :
    linearNew w b inF outF = none ↔ inF < 0 ∨ outF < 0 := by
  unfold linearNew
  split
  · exact iff_of_true rfl (by assumption)
  · exact iff_of_false (by simp) (by assumption)

/-- Construction of `PointNetLayer(inC, outC)` fails exactly when a `Linear` allocation gets a
negative size: iff `inC + 3 < 0` or `outC < 0`. -/
theorem pointNetLayerNew_eq_none (w1 : Nat → Nat → ℚ) (b1 : Nat → ℚ)
    (w2 : Nat → Nat → ℚ) (b2 : Nat → ℚ) (inC outC : Int) :
    PointNetLayer.new w1 b1 w2 b2 inC outC = none ↔ inC + 3 < 0 ∨ outC < 0 := by
  unfold PointNetLayer.new
  rcases hl1 : linearNew w1 b1 (inC + 3) outC with _ | l1
  · rw [linearNew_eq_none] at hl1
    exact iff_of_true rfl hl1
  rcases hl2 : linearNew w2 b2 outC outC with _ | l2
  · rw [linearNew_eq_none] at hl2
    exact iff_of_true rfl (by omega)
  · have hne1 : ¬(inC + 3 < 0 ∨ outC < 0) := by
      rw [← linearNew_eq_none w1 b1, hl1]; simp
    exact iff_of_false (by simp) hne1

/-- Construction of `PointNet()` fails exactly when the classifier's class count
is negative; the two layers (channels 3, 32) always construct. -/
theorem pointNetNew_eq_none (w1 : Nat → Nat → ℚ) (b1 : Nat → ℚ)
    (w2 : Nat → Nat → ℚ) (b2 : Nat → ℚ) (w3 : Nat → Nat → ℚ) (b3 : Nat → ℚ)
    (w4 : Nat → Nat → ℚ) (b4 : Nat → ℚ) (wc : Nat → Nat → ℚ) (bc : Nat → ℚ)
    (numClasses : Int) :
    PointNet.new w1 b1 w2 b2 w3 b3 w4 b4 wc bc numClasses = none ↔
      numClasses < 0 := by
  unfold PointNet.new
  rcases h1 : PointNetLayer.new w1 b1 w2 b2 3 32 with _ | c1
  · rw [pointNetLayerNew_eq_none] at h1; omega
  rcases h2 : PointNetLayer.new w3 b3 w4 b4 32 32 with _ | c2
  · rw [pointNetLayerNew_eq_none] at h2; omega
  rcases h3 : linearNew wc bc 32 numClasses with _ | cl
  · rw [linearNew_eq_none] at h3
    exact iff_of_true rfl (by omega)
  · have hne : ¬((32 : Int) < 0 ∨ numClasses < 0) := by
      rw [← linearNew_eq_none wc bc, h3]; simp
    exact iff_of_false (by simp) (by omega)

/-- C5 counterexample: construction with non-positive dimensions succeeds.
`PointNetLayer(0, 32)` (non-positive `in_channels`) and a classifier with
class count `0` are both accepted, not rejected. -/
theorem c5_counterexample :
    (PointNetLayer.new (fun _ _ => 0) (fun _ => 0) (fun _ _ => 0) (fun _ => 0)
      0 32).isSome = true ∧
    (PointNet.new (fun _ _ => 0) (fun _ => 0) (fun _ _ => 0) (fun _ => 0)
      (fun _ _ => 0) (fun _ => 0) (fun _ _ => 0) (fun _ => 0)
      (fun _ _ => 0) (fun _ => 0) 0).isSome = true :=
  ⟨rfl, rfl⟩

/-- C5 (amended): construction performs no validation of its own.
`PointNetLayer(inC, outC)` fails only when an underlying `Linear` allocation
is given a negative size, i.e. exactly when `inC + 3 < 0` or `outC < 0`
(so `inC ∈ {-3, -2, -1, 0}` and `outC = 0` are accepted), and the network
(classifier `Linear(32, numClasses)`) fails exactly when `numClasses < 0`
(zero classes accepted).  When it fails, it does fail at construction. -/
theorem c5_construction_validation (w1 : Nat → Nat → ℚ) (b1 : Nat → ℚ)
    (w2 : Nat → Nat → ℚ) (b2 : Nat → ℚ) (w3 : Nat → Nat → ℚ) (b3 : Nat → ℚ)
    (w4 : Nat → Nat → ℚ) (b4 : Nat → ℚ) (wc : Nat → Nat → ℚ) (bc : Nat → ℚ)
    (inC outC numClasses : Int) :
    (PointNetLayer.new w1 b1 w2 b2 inC outC = none ↔
      inC + 3 < 0 ∨ outC < 0) ∧
    (PointNet.new w1 b1 w2 b2 w3 b3 w4 b4 wc bc numClasses = none ↔
      numClasses < 0) :=
  ⟨pointNetLayerNew_eq_none w1 b1 w2 b2 inC outC,
   pointNetNew_eq_none w1 b1 w2 b2 w3 b3 w4 b4 wc bc numClasses⟩

/-! ### C8 -/

/-- C8: a destination point with zero incoming edges causes no fault:
`forward` succeeds and that point's output row is the zero vector (one zero
per output channel), the fill value of the max-aggregation scatter. -/
theorem c8_isolated_point_zero_row (L : PointNetLayer) (h pos : List Vec)
    (edges : List (Nat × Nat)) (i : Nat)
    (hlen : h.length = pos.length) (hv : validEdges h.length edges = true)
    (hi : i < h.length) (hiso : ∀ e ∈ edges, e.2 ≠ i) :
    ∃ out, L.forward h pos edges = some out ∧
      out.getD i [] = List.replicate L.outDim 0 := by
  refine ⟨(List.range h.length).map (L.rowOut h pos edges), ?_, ?_⟩
  · unfold PointNetLayer.forward
    rw [if_pos ⟨hlen, hv⟩]
  · rw [getD_map_range _ hi]
    unfold PointNetLayer.rowOut
    rw [List.filter_eq_nil_iff.mpr, List.map_nil]
    · rfl
    · intro e he hb
      exact hiso e he (by simpa using hb)

/-- Witness for C8: point 0 of a two-point cloud with one edge into point 1. -/
theorem c8_isolated_point_zero_row_witness :
    (∀ e ∈ [((0 : Nat), (1 : Nat))], e.2 ≠ 0) ∧
    (∃ out, demoLayer.forward wH wPos [(0, 1)] = some out ∧
      out.getD 0 [] = List.replicate demoLayer.outDim 0) :=
  ⟨by decide,
   c8_isolated_point_zero_row demoLayer wH wPos [(0, 1)] 0 (by decide)
     (by decide) (by decide) (by decide)⟩

/-! ### More helper lemmas: shapes, maxima, nonnegativity -/

theorem message_length {L : PointNetLayer} {outC : Nat}
    (hs : L.mlp.lin2.hasShape outC outC) (h pos : List Vec) (j i : Nat) :
    (L.message h pos j i).length = outC := by
  simp only [PointNetLayer.message, MLP.apply]
  exact Linear.length_apply_of_shape hs _

theorem rowOut_length {L : PointNetLayer} {outC : Nat}
    (hs : L.mlp.lin2.hasShape outC outC) (h pos : List Vec)
    (edges : List (Nat × Nat)) (i : Nat) :
    (L.rowOut h pos edges i).length = outC := by
  unfold PointNetLayer.rowOut
  refine aggrMax_length ?_ ?_
  · rw [List.length_replicate, PointNetLayer.outDim, hs.1]
  · intro v hv
    rw [List.mem_map] at hv
    obtain ⟨e, -, rfl⟩ := hv
    exact message_length hs h pos e.1 e.2

theorem layer_forward_isMatrix {L : PointNetLayer} {outC : Nat}
    (hs : L.mlp.lin2.hasShape outC outC) {h pos : List Vec}
    {edges : List (Nat × Nat)}
    (hlen : h.length = pos.length) (hv : validEdges h.length edges = true) :
    L.forward h pos edges =
      some ((List.range h.length).map (L.rowOut h pos edges)) ∧
    isMatrix ((List.range h.length).map (L.rowOut h pos edges))
      h.length outC := by
  refine ⟨by unfold PointNetLayer.forward; rw [if_pos ⟨hlen, hv⟩], ?_, ?_⟩
  · rw [List.length_map, List.length_range]
  · intro r hr
    rw [List.mem_map] at hr
    obtain ⟨k, -, rfl⟩ := hr
    exact rowOut_length hs h pos edges k

theorem le_foldl_max : ∀ (l : List Nat) (a : Nat), a ≤ l.foldl max a := by
  intro l
  induction l with
  | nil => intro a; exact Nat.le_refl a
  | cons x l ih => intro a; exact le_trans (Nat.le_max_left a x) (ih (max a x))

theorem mem_le_foldl_max {l : List Nat} {v : Nat} (hv : v ∈ l) :
    ∀ a, v ≤ l.foldl max a := by
  induction l with
  | nil => cases hv
  | cons x l ih =>
    intro a
    rcases List.mem_cons.mp hv with rfl | hv'
    · exact le_trans (Nat.le_max_right a v) (le_foldl_max l (max a v))
    · exact ih hv' (max a x)

theorem foldl_max_le {m : Nat} : ∀ {l : List Nat} (a : Nat), a ≤ m →
    (∀ v ∈ l, v ≤ m) → l.foldl max a ≤ m := by
  intro l
  induction l with
  | nil => intro a ha _; exact ha
  | cons x l ih =>
    intro a ha hl
    exact ih (max a x) (max_le ha (hl x (List.mem_cons_self x l)))
      (fun v hv => hl v (List.mem_cons_of_mem x hv))

theorem foldl_max_eq_of_mem {l : List Nat} {B : Nat} (hB : 0 < B)
    (hub : ∀ v ∈ l, v < B) (hmem : B - 1 ∈ l) : l.foldl max 0 = B - 1 :=
  Nat.le_antisymm
    (foldl_max_le 0 (Nat.zero_le _) (fun v hv => by have := hub v hv; omega))
    (mem_le_foldl_max hmem 0)

theorem reluV_nonneg (x : Vec) : ∀ a ∈ reluV x, 0 ≤ a := by
  intro a ha
  rw [reluV, List.mem_map] at ha
  obtain ⟨b, -, rfl⟩ := ha
  exact le_max_right b 0

theorem vmax_nonneg : ∀ {a b : Vec}, (∀ x ∈ a, 0 ≤ x) → (∀ x ∈ b, 0 ≤ x) →
    ∀ x ∈ vmax a b, 0 ≤ x := by
  intro a
  induction a with
  | nil => intro b _ _ x hx; cases hx
  | cons y a ih =>
    intro b ha hb x hx
    cases b with
    | nil => cases hx
    | cons z b =>
      simp only [vmax, List.zipWith_cons_cons, List.mem_cons] at hx
      rcases hx with rfl | hx
      · exact le_trans (ha y (List.mem_cons_self y a)) (le_max_left y z)
      · exact ih (fun u hu => ha u (List.mem_cons_of_mem y hu))
          (fun u hu => hb u (List.mem_cons_of_mem z hu)) x hx

theorem foldl_scatterMax_nonneg :
    ∀ (ms : List Vec) (acc : Option Vec),
      (∀ v ∈ ms, ∀ x ∈ v, 0 ≤ x) →
      (∀ a, acc = some a → ∀ x ∈ a, 0 ≤ x) →
      ∀ b, ms.foldl scatterMax acc = some b → ∀ x ∈ b, 0 ≤ x := by
  intro ms
  induction ms with
  | nil => intro acc _ hacc b hb; exact hacc b hb
  | cons m ms ih =>
    intro acc hms hacc b hb
    simp only [List.foldl_cons] at hb
    refine ih (scatterMax acc m)
      (fun v hv => hms v (List.mem_cons_of_mem _ hv)) ?_ b hb
    intro a ha
    cases acc with
    | none =>
      simp only [scatterMax, Option.some.injEq] at ha
      rw [← ha]; exact hms m (List.mem_cons_self m ms)
    | some a0 =>
      simp only [scatterMax, Option.some.injEq] at ha
      rw [← ha]
      exact vmax_nonneg (hacc a0 rfl) (hms m (List.mem_cons_self m ms))

theorem aggrMax_nonneg {d : Vec} (hd : ∀ x ∈ d, 0 ≤ x) {ms : List Vec}
    (hm : ∀ v ∈ ms, ∀ x ∈ v, 0 ≤ x) : ∀ x ∈ aggrMax d ms, 0 ≤ x := by
  unfold aggrMax
  cases hfold : ms.foldl scatterMax none with
  | none => simpa using hd
  | some b =>
    simpa using foldl_scatterMax_nonneg ms none hm (fun a ha => by cases ha)
      b hfold

theorem forall₂_le_vmax : ∀ {a b : Vec}, a.length = b.length →
    List.Forall₂ (· ≤ ·) a (vmax a b) := by
  intro a
  induction a with
  | nil =>
    intro b hb
    cases b with
    | nil => exact List.Forall₂.nil
    | cons z b => cases hb
  | cons y a ih =>
    intro b hb
    cases b with
    | nil => cases hb
    | cons z b =>
      simp only [List.length_cons, Nat.succ.injEq] at hb
      exact List.Forall₂.cons (le_max_left y z) (ih hb)

theorem pointFeatures_spec {m : PointNet}
    (hc1 : m.conv1.mlp.lin2.hasShape 32 32)
    (hc2 : m.conv2.mlp.lin2.hasShape 32 32)
    {pos : List Vec} {edges : List (Nat × Nat)}
    (hv : validEdges pos.length edges = true) :
    ∃ h2r, m.pointFeatures pos edges = some h2r ∧
      isMatrix h2r pos.length 32 ∧ ∀ v ∈ h2r, ∀ x ∈ v, 0 ≤ x := by
  obtain ⟨hf1, hm1⟩ :=
    layer_forward_isMatrix hc1 (rfl : pos.length = pos.length) hv
  set out1 := (List.range pos.length).map (m.conv1.rowOut pos pos edges)
    with hout1
  have hlen1 : (out1.map reluV).length = pos.length := by
    rw [List.length_map, hm1.1]
  have hv2 : validEdges (out1.map reluV).length edges = true := by
    rw [hlen1]; exact hv
  obtain ⟨hf2, hm2⟩ := layer_forward_isMatrix hc2 hlen1 hv2
  set out2 := (List.range (out1.map reluV).length).map
    (m.conv2.rowOut (out1.map reluV) pos edges) with hout2
  refine ⟨out2.map reluV, ?_, ⟨?_, ?_⟩, ?_⟩
  · unfold PointNet.pointFeatures
    rw [hf1, Option.some_bind, hf2]
    rfl
  · rw [List.length_map, hm2.1, hlen1]
  · intro r hr
    rw [List.mem_map] at hr
    obtain ⟨r0, hr0, rfl⟩ := hr
    rw [length_reluV]
    exact hm2.2 r0 hr0
  · intro v hv0
    rw [List.mem_map] at hv0
    obtain ⟨v0, -, rfl⟩ := hv0
    exact reluV_nonneg v0

/-! ### C3 -/

/-- C3: on a valid `N`-point input a layer of shape `(inC, outC)` returns an
`[N, outC]` feature matrix (so `[10, 32]` for `PointNetLayer(3, 32)` on 10
points), and `PointNet.forward` on a `B`-object batch returns a
`[B, num_classes]` logits matrix (so `[4, num_classes]` for `B = 4`). -/
theorem c3_shape_contract
    (L : PointNetLayer) (inC outC n : Nat) (h pos : List Vec)
    (edges : List (Nat × Nat)) (hL : L.hasShape inC outC)
    (hh : isMatrix h n inC) (hp : isMatrix pos n 3)
    (hv : validEdges n edges = true)
    (m : PointNet) (numClasses B : Nat) (bpos : List Vec)
    (bedges : List (Nat × Nat)) (batch : List Nat)
    (hc1 : m.conv1.hasShape 3 32) (hc2 : m.conv2.hasShape 32 32)
    (hcl : m.classifier.hasShape 32 numClasses)
    (hbv : validEdges bpos.length bedges = true)
    (hblen : batch.length = bpos.length)
    (hB : 0 < B) (hub : ∀ v ∈ batch, v < B) (hlast : B - 1 ∈ batch) :
    (∃ out, L.forward h pos edges = some out ∧ isMatrix out n outC) ∧
    (∃ logits, m.forward bpos bedges batch = some logits ∧
      isMatrix logits B numClasses) := by
  constructor
  · have hlen : h.length = pos.length := hh.1.trans hp.1.symm
    have hv' : validEdges h.length edges = true := by rw [hh.1]; exact hv
    obtain ⟨hf, hm⟩ := layer_forward_isMatrix hL.2 hlen hv'
    exact ⟨_, hf, by rw [← hh.1]; exact hm⟩
  · obtain ⟨h2r, hpf, hm2, -⟩ := pointFeatures_spec hc1.2 hc2.2 hbv
    have hbne : 0 < batch.length := by
      rcases batch with _ | ⟨b, bs⟩
      · cases hlast
      · exact Nat.succ_pos _
    refine ⟨(globalMaxPool m.conv2.outDim h2r batch).map m.classifier.apply,
      ?_, ?_, ?_⟩
    · unfold PointNet.forward
      rw [if_pos ⟨hblen, hbne⟩, hpf]
      rfl
    · rw [List.length_map]
      unfold globalMaxPool
      rw [List.length_map, List.length_range, foldl_max_eq_of_mem hB hub hlast]
      omega
    · intro r hr
      rw [List.mem_map] at hr
      obtain ⟨r0, -, rfl⟩ := hr
      exact Linear.length_apply_of_shape hcl r0

/-- A concrete `PointNetLayer(3, 32)`. -/
def bigLayer1 : PointNetLayer := ⟨⟨constLin 6 32, constLin 32 32⟩⟩

/-- A concrete `PointNetLayer(32, 32)`. -/
def bigLayer2 : PointNetLayer := ⟨⟨constLin 35 32, constLin 32 32⟩⟩

/-- A concrete `PointNet` with a 10-class head (ModelNet10). -/
def bigNet : PointNet := ⟨bigLayer1, bigLayer2, constLin 32 10, true⟩

/-- Witness for C3: 10 points through `PointNetLayer(3, 32)` give a
`[10, 32]` matrix; a 4-object batch through the network gives `[4, 10]`. -/
theorem c3_shape_contract_witness :
    bigLayer1.hasShape 3 32 ∧ bigNet.classifier.hasShape 32 10 ∧
    ((∃ out, bigLayer1.forward (List.replicate 10 [0, 0, 0])
        (List.replicate 10 [0, 0, 0]) [(0, 1), (1, 0)] = some out ∧
        isMatrix out 10 32) ∧
     (∃ logits, bigNet.forward (List.replicate 4 [0, 0, 0]) [] [0, 1, 2, 3] =
        some logits ∧ isMatrix logits 4 10)) :=
  ⟨by decide, by decide,
   c3_shape_contract bigLayer1 3 32 10 (List.replicate 10 [0, 0, 0])
     (List.replicate 10 [0, 0, 0]) [(0, 1), (1, 0)] (by decide) (by decide)
     (by decide) (by decide) bigNet 10 4 (List.replicate 4 [0, 0, 0]) []
     [0, 1, 2, 3] (by decide) (by decide) (by decide) (by decide) (by decide)
     (by decide) (by decide) (by decide)⟩

/-! ### C7 -/

/-- C7: `PointNet.forward` is stateless given fixed parameters.  Two models
with the same parameter values (any training-mode flags, any number of calls)
produce the same logits on the same input, and forward is insensitive to
`model.train()` / `model.eval()` — no dropout or batch-norm behavior exists.
Being a pure function of the parameters, forward mutates nothing. -/
theorem c7_stateless_forward (m₁ m₂ : PointNet) (pos : List Vec)
    (edges : List (Nat × Nat)) (batch : List Nat)
    (h1 : m₁.conv1 = m₂.conv1) (h2 : m₁.conv2 = m₂.conv2)
    (h3 : m₁.classifier = m₂.classifier) :
    m₁.forward pos edges batch = m₂.forward pos edges batch ∧
    m₁.trainMode.forward pos edges batch =
      m₁.evalMode.forward pos edges batch := by
  obtain ⟨c1, c2, cl, t1⟩ := m₁
  obtain ⟨c1', c2', cl', t2⟩ := m₂
  cases h1
  cases h2
  cases h3
  exact ⟨rfl, rfl⟩

/-- Witness for C7: the same parameters in training and evaluation mode. -/
theorem c7_stateless_forward_witness :
    bigNet.conv1 = bigNet.evalMode.conv1 ∧
    (bigNet.forward wPos wEdges [0, 0] =
        bigNet.evalMode.forward wPos wEdges [0, 0] ∧
     bigNet.trainMode.forward wPos wEdges [0, 0] =
        bigNet.evalMode.forward wPos wEdges [0, 0]) :=
  ⟨rfl, c7_stateless_forward bigNet bigNet.evalMode wPos wEdges [0, 0]
    rfl rfl rfl⟩

/-! ### C9 -/

theorem aggrMax_append_of_ne_nil {d : Vec} {ms : List Vec} (hms : ms ≠ [])
    (v : Vec) : aggrMax d (ms ++ [v]) = vmax (aggrMax d ms) v := by
  cases ms with
  | nil => cases hms rfl
  | cons m rest =>
    unfold aggrMax
    rw [List.foldl_append]
    obtain ⟨a, ha⟩ := foldl_scatterMax_isSome rest m
    have hsome : ((m :: rest).foldl scatterMax none) = some a := by
      simpa only [List.foldl_cons, scatterMax] using ha
    rw [hsome]
    rfl

/-- C9: appending one extra valid edge with destination `i` leaves the output
rows of every other destination unchanged; if `i` already had an incoming
edge, the new row for `i` dominates the old one elementwise. -/
theorem c9_extra_edge_monotone (L : PointNetLayer) (outC : Nat)
    (hs : L.mlp.lin2.hasShape outC outC)
    (h pos : List Vec) (edges : List (Nat × Nat)) (j i : Nat)
    (hlen : h.length = pos.length) (hv : validEdges h.length edges = true)
    (hj : j < h.length) (hi : i < h.length) :
    ∃ out out', L.forward h pos edges = some out ∧
      L.forward h pos (edges ++ [(j, i)]) = some out' ∧
      (∀ k, k ≠ i → out'.getD k [] = out.getD k []) ∧
      ((∃ e ∈ edges, e.2 = i) →
        List.Forall₂ (· ≤ ·) (out.getD i []) (out'.getD i [])) := by
  have hv' : validEdges h.length (edges ++ [(j, i)]) = true := by
    rw [validEdges, List.all_eq_true] at hv ⊢
    intro e he
    rcases List.mem_append.mp he with he' | he'
    · exact hv e he'
    · rcases List.mem_singleton.mp he' with rfl
      simp only [Bool.and_eq_true, decide_eq_true_eq]
      exact ⟨hj, hi⟩
  refine ⟨(List.range h.length).map (L.rowOut h pos edges),
    (List.range h.length).map (L.rowOut h pos (edges ++ [(j, i)])),
    by unfold PointNetLayer.forward; rw [if_pos ⟨hlen, hv⟩],
    by unfold PointNetLayer.forward; rw [if_pos ⟨hlen, hv'⟩], ?_, ?_⟩
  · intro k hk
    by_cases hkn : k < h.length
    · rw [getD_map_range _ hkn, getD_map_range _ hkn]
      unfold PointNetLayer.rowOut
      rw [List.filter_append]
      have hik : (i == k) = false := by
        rw [beq_eq_false_iff_ne]
        exact fun hik => hk hik.symm
      have hfil0 : List.filter (fun e => e.2 == k) [(j, i)] = [] := by
        rw [List.filter_cons]
        simp [hik]
      rw [hfil0, List.append_nil]
    · have hkn' : ((List.range h.length).map (L.rowOut h pos edges)).length ≤ k := by
        rw [List.length_map, List.length_range]; omega
      have hkn'' : ((List.range h.length).map
          (L.rowOut h pos (edges ++ [(j, i)]))).length ≤ k := by
        rw [List.length_map, List.length_range]; omega
      rw [List.getD_eq_default _ _ hkn', List.getD_eq_default _ _ hkn'']
  · rintro ⟨e, he, hei⟩
    rw [getD_map_range _ hi, getD_map_range _ hi]
    unfold PointNetLayer.rowOut
    rw [List.filter_append]
    have hfil : List.filter (fun e => e.2 == i) [(j, i)] = [(j, i)] := by
      simp
    rw [hfil, List.map_append]
    have hne : (List.filter (fun e => e.2 == i) edges).map
        (fun e => L.message h pos e.1 e.2) ≠ [] := by
      intro hnil
      rw [List.map_eq_nil_iff] at hnil
      have : e ∈ List.filter (fun e => e.2 == i) edges := by
        rw [List.mem_filter]
        exact ⟨he, by simpa using hei⟩
      rw [hnil] at this
      cases this
    rw [show ([(j, i)].map (fun e => L.message h pos e.1 e.2)) =
      [L.message h pos j i] from rfl]
    rw [aggrMax_append_of_ne_nil hne]
    refine forall₂_le_vmax ?_
    rw [message_length hs]
    refine aggrMax_length (by rw [List.length_replicate, PointNetLayer.outDim, hs.1]) ?_
    intro v hv0
    rw [List.mem_map] at hv0
    obtain ⟨e0, -, rfl⟩ := hv0
    exact message_length hs h pos e0.1 e0.2

/-- Witness for C9: adding a second edge into point 0 of a two-point cloud. -/
theorem c9_extra_edge_monotone_witness :
    demoLayer.mlp.lin2.hasShape 2 2 ∧ (1, 0) ∈ wEdges ∧
    (∃ out out', demoLayer.forward wH wPos wEdges = some out ∧
      demoLayer.forward wH wPos (wEdges ++ [(0, 0)]) = some out' ∧
      (∀ k, k ≠ 0 → out'.getD k [] = out.getD k []) ∧
      ((∃ e ∈ wEdges, e.2 = 0) →
        List.Forall₂ (· ≤ ·) (out.getD 0 []) (out'.getD 0 []))) :=
  ⟨by decide, by decide,
   c9_extra_edge_monotone demoLayer 2 (by decide) wH wPos wEdges 0 0
     (by decide) (by decide) (by decide) (by decide)⟩

/-! ### C10 -/

/-- C10: every entry of every per-object pooled feature row fed to the final
classifier is nonnegative, because each point feature row went through a ReLU
after the second message-passing layer (and the pool's fill value is zero). -/
theorem c10_pooled_nonneg (m : PointNet) (pos : List Vec)
    (edges : List (Nat × Nat)) (batch : List Nat) (h2r : List Vec)
    (hpf : m.pointFeatures pos edges = some h2r)
    (hown : ∀ b ≤ batch.foldl max 0, b ∈ batch) :
    ∀ v ∈ globalMaxPool m.conv2.outDim h2r batch, ∀ x ∈ v, 0 ≤ x := by
  have hnn : ∀ v ∈ h2r, ∀ x ∈ v, 0 ≤ x := by
    unfold PointNet.pointFeatures at hpf
    rcases hf1 : m.conv1.forward pos pos edges with _ | h1
    · rw [hf1] at hpf; cases hpf
    rw [hf1, Option.some_bind] at hpf
    rw [Option.map_eq_some'] at hpf
    obtain ⟨h2, -, rfl⟩ := hpf
    intro v hv
    rw [List.mem_map] at hv
    obtain ⟨v0, -, rfl⟩ := hv
    exact reluV_nonneg v0
  intro v hvmem
  unfold globalMaxPool at hvmem
  rw [List.mem_map] at hvmem
  obtain ⟨b, -, rfl⟩ := hvmem
  refine aggrMax_nonneg ?_ ?_
  · intro x hx
    rcases (List.mem_replicate.mp hx).2 with rfl
    exact le_refl 0
  · intro w hw
    rw [List.mem_map] at hw
    obtain ⟨p, hp, rfl⟩ := hw
    rw [List.mem_filter] at hp
    exact hnn p.2 (List.of_mem_zip hp.1).2

/-- Witness for C10: a two-point, two-object batch through `bigNet`. -/
theorem c10_pooled_nonneg_witness :
    bigNet.pointFeatures wPos wEdges =
      some (((List.range 2).map (bigNet.conv1.rowOut wPos wPos wEdges)).map
        reluV |> fun h1r =>
          ((List.range 2).map (bigNet.conv2.rowOut h1r wPos wEdges)).map
            reluV) ∧
    (∀ v ∈ globalMaxPool bigNet.conv2.outDim
        (((List.range 2).map (bigNet.conv1.rowOut wPos wPos wEdges)).map
          reluV |> fun h1r =>
            ((List.range 2).map (bigNet.conv2.rowOut h1r wPos wEdges)).map
              reluV) [0, 1], ∀ x ∈ v, 0 ≤ x) :=
  ⟨by rfl,
   c10_pooled_nonneg bigNet wPos wEdges [0, 1] _ (by rfl) (by decide)⟩

/-! ### Helper lemmas for permutation invariance and batch independence -/

theorem getD_map_of_lt {α β : Type _} (f : α → β) {l : List α} {k : Nat}
    (hk : k < l.length) (d : α) (d' : β) :
    (l.map f).getD k d' = f (l.getD k d) := by
  rw [List.getD_eq_getElem _ _ (by simpa using hk), List.getElem_map,
    List.getD_eq_getElem _ _ hk]

theorem getD_replicate_of_lt {α : Type _} {n k : Nat} (hk : k < n) (a d : α) :
    (List.replicate n a).getD k d = a := by
  rw [List.getD_eq_getElem _ _ (by simpa using hk), List.getElem_replicate]

theorem message_congr (L : PointNetLayer) {h1 pos1 h2 pos2 : List Vec}
    {j j' i i' : Nat}
    (hj : h1.getD j [] = h2.getD j' [])
    (hpj : pos1.getD j [] = pos2.getD j' [])
    (hpi : pos1.getD i [] = pos2.getD i' []) :
    L.message h1 pos1 j i = L.message h2 pos2 j' i' := by
  unfold PointNetLayer.message
  rw [hj, hpj, hpi]

/-- The image of `range n` under a bijection of `[0, n)` is a permutation of
`range n`. -/
theorem map_perm_range {n : Nat} {σ τ : Nat → Nat}
    (hτ : ∀ k, k < n → τ k < n) (hτσ : ∀ k, k < n → σ (τ k) = k) :
    ((List.range n).map τ).Perm (List.range n) := by
  have hnodup : ((List.range n).map τ).Nodup := by
    refine List.Nodup.map_on ?_ (List.nodup_range n)
    intro x hx y hy hxy
    rw [List.mem_range] at hx hy
    calc x = σ (τ x) := (hτσ x hx).symm
    _ = σ (τ y) := by rw [hxy]
    _ = y := hτσ y hy
  have hsub : ((List.range n).map τ) ⊆ List.range n := by
    intro x hx
    rw [List.mem_map] at hx
    obtain ⟨k, hk, rfl⟩ := hx
    rw [List.mem_range] at hk ⊢
    exact hτ k hk
  refine (hnodup.subperm hsub).perm_of_length_le ?_
  rw [List.length_map]

/-- A pooled slot's message list, written by index over `range`. -/
theorem pool_row_zip {n : Nat} (h : List Vec) (batch : List Nat) (b : Nat)
    (hlen : batch.length = n) (hn : h.length = n) :
    ((batch.zip h).filter (fun p => p.1 == b)).map Prod.snd =
      ((List.range n).filter
        (fun k => batch.getD k 0 == b)).map (fun k => h.getD k []) := by
  have hz : batch.zip h = (List.range n).map
      (fun k => (batch.getD k 0, h.getD k [])) := by
    apply List.ext_getElem
    · rw [List.length_zip, hlen, hn, Nat.min_self, List.length_map,
        List.length_range]
    · intro k h1 h2
      have hkh : k < n := by
        rw [List.length_zip, hlen, hn, Nat.min_self] at h1
        exact h1
      rw [List.getElem_zip, List.getElem_map, List.getElem_range,
        List.getD_eq_getElem _ _ (by omega : k < batch.length),
        List.getD_eq_getElem _ _ (by omega : k < h.length)]
  rw [hz, List.filter_map, List.map_map]
  rfl

/-- Relabel-and-permute invariance of a single output row: if `(h2, pos2)`
hold the rows of `(h, pos)` relocated by the bijection `σ` (with inverse `τ`)
and `edgesP` is any reordering of the relabelled edge list, destination
`σ i`'s row over the new data equals destination `i`'s row over the old. -/
theorem rowOut_relabel (L : PointNetLayer) {n : Nat} {h pos h2 pos2 : List Vec}
    {edges edgesP : List (Nat × Nat)} {σ τ : Nat → Nat}
    (hσ : ∀ k, k < n → σ k < n) (hτ : ∀ k, k < n → τ k < n)
    (hστ : ∀ k, k < n → τ (σ k) = k)
    (hv : validEdges n edges = true)
    (hperm : edgesP.Perm (edges.map (fun e => (σ e.1, σ e.2))))
    (hh2 : ∀ k, k < n → h2.getD k [] = h.getD (τ k) [])
    (hpos2 : ∀ k, k < n → pos2.getD k [] = pos.getD (τ k) [])
    {i : Nat} (hi : i < n) :
    L.rowOut h2 pos2 edgesP (σ i) = L.rowOut h pos edges i := by
  rw [validEdges, List.all_eq_true] at hv
  have hvalid : ∀ e ∈ edges, e.1 < n ∧ e.2 < n := by
    intro e he
    have := hv e he
    simpa only [Bool.and_eq_true, decide_eq_true_eq] using this
  unfold PointNetLayer.rowOut
  refine aggrMax_perm _ ((List.Perm.map _ (List.Perm.filter _ hperm)).trans ?_)
  rw [List.filter_map, List.map_map]
  have hfil : List.filter ((fun e => e.2 == σ i) ∘
      (fun e => (σ e.1, σ e.2))) edges = List.filter (fun e => e.2 == i) edges := by
    refine List.filter_congr ?_
    intro e he
    show (σ e.2 == σ i) = (e.2 == i)
    rw [Bool.eq_iff_iff, beq_iff_eq, beq_iff_eq]
    constructor
    · intro hσe
      have h1 : τ (σ e.2) = τ (σ i) := by rw [hσe]
      rw [hστ e.2 (hvalid e he).2, hστ i hi] at h1
      exact h1
    · intro he2; rw [he2]
  rw [hfil]
  refine List.Perm.of_eq (List.map_congr_left ?_)
  intro e he
  have he' := hvalid e (List.mem_of_mem_filter he)
  show L.message h2 pos2 (σ e.1) (σ e.2) = L.message h pos e.1 e.2
  refine message_congr L ?_ ?_ ?_
  · rw [hh2 (σ e.1) (hσ e.1 he'.1), hστ e.1 he'.1]
  · rw [hpos2 (σ e.1) (hσ e.1 he'.1), hστ e.1 he'.1]
  · rw [hpos2 (σ e.2) (hσ e.2 he'.2), hστ e.2 he'.2]

theorem eq_map_range_getD {α : Type _} {l : List α} {n : Nat}
    (hn : l.length = n) (d : α) :
    l = (List.range n).map (fun k => l.getD k d) := by
  apply List.ext_getElem
  · rw [List.length_map, List.length_range, hn]
  · intro k h1 h2
    rw [List.getElem_map, List.getElem_range,
      List.getD_eq_getElem _ _ (by omega)]

theorem validEdges_relabel_perm {n : Nat} {edges edgesP : List (Nat × Nat)}
    {σ : Nat → Nat} (hσ : ∀ k, k < n → σ k < n)
    (hv : validEdges n edges = true)
    (hperm : edgesP.Perm (edges.map (fun e => (σ e.1, σ e.2)))) :
    validEdges n edgesP = true := by
  rw [validEdges, List.all_eq_true] at hv ⊢
  intro e he
  have he' := hperm.mem_iff.mp he
  rw [List.mem_map] at he'
  obtain ⟨e0, he0, rfl⟩ := he'
  have hb := hv e0 he0
  simp only [Bool.and_eq_true, decide_eq_true_eq] at hb ⊢
  exact ⟨hσ e0.1 hb.1, hσ e0.2 hb.2⟩

/-- Global max pooling is invariant under relocating the point rows (and
their batch ids) by a bijection of `[0, n)`. -/
theorem globalMaxPool_relabel {dim n : Nat} {h h2 : List Vec}
    {batch batch2 : List Nat} {σ τ : Nat → Nat}
    (hhn : h.length = n) (hbn : batch.length = n)
    (hh2n : h2.length = n) (hb2n : batch2.length = n)
    (hτ : ∀ k, k < n → τ k < n) (hτσ : ∀ k, k < n → σ (τ k) = k)
    (hh2 : ∀ k, k < n → h2.getD k [] = h.getD (τ k) [])
    (hb2 : ∀ k, k < n → batch2.getD k 0 = batch.getD (τ k) 0) :
    globalMaxPool dim h2 batch2 = globalMaxPool dim h batch := by
  have hmaxrc : ∀ (b x y : Nat), max (max b x) y = max (max b y) x := by
    intro b x y; omega
  have hτperm := map_perm_range hτ hτσ
  have hbperm : batch2.Perm batch := by
    rw [eq_map_range_getD hb2n 0, List.map_congr_left
      (fun k hk => hb2 k (List.mem_range.mp hk)),
      show ((List.range n).map fun k => batch.getD (τ k) 0) =
        ((List.range n).map τ).map (fun k => batch.getD k 0) by
          rw [List.map_map]; rfl]
    exact ((hτperm.map _).trans (eq_map_range_getD hbn 0 ▸ List.Perm.refl _))
  unfold globalMaxPool
  rw [foldl_perm_of_rightComm hmaxrc hbperm 0]
  refine List.map_congr_left ?_
  intro b _
  rw [pool_row_zip h2 batch2 b hb2n hh2n, pool_row_zip h batch b hbn hhn]
  refine aggrMax_perm _ ?_
  have hfil : (List.range n).filter (fun k => batch2.getD k 0 == b) =
      (List.range n).filter ((fun k => batch.getD k 0 == b) ∘ τ) := by
    refine List.filter_congr ?_
    intro k hk
    show (batch2.getD k 0 == b) = (batch.getD (τ k) 0 == b)
    rw [hb2 k (List.mem_range.mp hk)]
  have hmap : ((List.range n).filter ((fun k => batch.getD k 0 == b) ∘ τ)).map
      ((fun k => h.getD k []) ∘ τ) =
      (((List.range n).map τ).filter (fun k => batch.getD k 0 == b)).map
        (fun k => h.getD k []) := by
    rw [List.filter_map, List.map_map]
  have hmap2 : ((List.range n).filter (fun k => batch2.getD k 0 == b)).map
      (fun k => h2.getD k []) =
      ((List.range n).filter ((fun k => batch.getD k 0 == b) ∘ τ)).map
        ((fun k => h.getD k []) ∘ τ) := by
    rw [hfil]
    refine List.map_congr_left ?_
    intro k hk
    have hk' := List.mem_range.mp (List.mem_of_mem_filter hk)
    show h2.getD k [] = h.getD (τ k) []
    exact hh2 k hk'
  rw [hmap2, hmap]
  exact (hτperm.filter _).map _

/-- Full-layer version of `rowOut_relabel`: the forward pass on the relocated
rows with any reordering of the relabelled edges succeeds and returns the old
rows relocated the same way. -/
theorem layer_forward_relabel (L : PointNetLayer) {n : Nat}
    {h pos : List Vec} {edges edgesP : List (Nat × Nat)} {σ τ : Nat → Nat}
    (hhn : h.length = n) (hpn : pos.length = n)
    (hσ : ∀ k, k < n → σ k < n) (hτ : ∀ k, k < n → τ k < n)
    (hστ : ∀ k, k < n → τ (σ k) = k) (hτσ : ∀ k, k < n → σ (τ k) = k)
    (hv : validEdges n edges = true)
    (hperm : edgesP.Perm (edges.map (fun e => (σ e.1, σ e.2)))) :
    L.forward ((List.range n).map fun k => h.getD (τ k) [])
        ((List.range n).map fun k => pos.getD (τ k) []) edgesP =
      some ((List.range n).map fun k => L.rowOut h pos edges (τ k)) ∧
    L.forward h pos edges = some ((List.range n).map (L.rowOut h pos edges)) := by
  have hvP := validEdges_relabel_perm hσ hv hperm
  have hh2n : ((List.range n).map fun k => h.getD (τ k) []).length = n := by
    rw [List.length_map, List.length_range]
  have hpos2n : ((List.range n).map fun k => pos.getD (τ k) []).length = n := by
    rw [List.length_map, List.length_range]
  constructor
  · unfold PointNetLayer.forward
    rw [if_pos ⟨hh2n.trans hpos2n.symm, by rw [hh2n]; exact hvP⟩, hh2n]
    refine congrArg some (List.map_congr_left ?_)
    intro k hk
    have hk' := List.mem_range.mp hk
    calc L.rowOut ((List.range n).map fun k => h.getD (τ k) [])
          ((List.range n).map fun k => pos.getD (τ k) []) edgesP k
        = L.rowOut ((List.range n).map fun k => h.getD (τ k) [])
          ((List.range n).map fun k => pos.getD (τ k) []) edgesP (σ (τ k)) := by
          rw [hτσ k hk']
      _ = L.rowOut h pos edges (τ k) := by
          refine rowOut_relabel L hσ hτ hστ hv hperm ?_ ?_ (hτ k hk')
          · intro j hj; exact getD_map_range _ hj []
          · intro j hj; exact getD_map_range _ hj []
  · unfold PointNetLayer.forward
    rw [if_pos ⟨hhn.trans hpn.symm, by rw [hhn]; exact hv⟩, hhn]

/-! ### C2 -/

/-- C2: permuting the points of a cloud (relocating feature and position rows
by a bijection `σ` of `[0, n)` with inverse `τ`, relabelling edge endpoints
consistently) and arbitrarily reordering the edge list leaves every
destination's `PointNetLayer` output row unchanged (row `σ i` of the new
output equals row `i` of the old), and leaves the logits that
`PointNet.forward` computes for each object unchanged. -/
theorem c2_permutation_invariance
    (L : PointNetLayer) (m : PointNet) (n : Nat)
    (h pos h2 pos2 : List Vec) (edges edgesP : List (Nat × Nat))
    (batch batch2 : List Nat) (σ τ : Nat → Nat)
    (hhn : h.length = n) (hpn : pos.length = n) (hbn : batch.length = n)
    (hσ : ∀ k, k < n → σ k < n) (hτ : ∀ k, k < n → τ k < n)
    (hστ : ∀ k, k < n → τ (σ k) = k) (hτσ : ∀ k, k < n → σ (τ k) = k)
    (hv : validEdges n edges = true)
    (hperm : edgesP.Perm (edges.map (fun e => (σ e.1, σ e.2))))
    (hh2 : h2 = (List.range n).map (fun k => h.getD (τ k) []))
    (hpos2 : pos2 = (List.range n).map (fun k => pos.getD (τ k) []))
    (hbatch2 : batch2 = (List.range n).map (fun k => batch.getD (τ k) 0)) :
    (∃ out outP, L.forward h pos edges = some out ∧
      L.forward h2 pos2 edgesP = some outP ∧
      ∀ i, i < n → outP.getD (σ i) [] = out.getD i []) ∧
    m.forward pos2 edgesP batch2 = m.forward pos edges batch := by
  subst hh2 hpos2 hbatch2
  obtain ⟨hfP, hfA⟩ :=
    layer_forward_relabel L hhn hpn hσ hτ hστ hτσ hv hperm
  constructor
  · refine ⟨_, _, hfA, hfP, ?_⟩
    intro i hi
    rw [getD_map_range _ (hσ i hi), getD_map_range _ hi, hστ i hi]
  · -- network part
    by_cases hn0 : n = 0
    · subst hn0
      unfold PointNet.forward
      rw [if_neg, if_neg]
      · rintro ⟨-, hlt⟩
        rw [hbn] at hlt
        omega
      · rintro ⟨-, hlt⟩
        rw [List.length_map, List.length_range] at hlt
        omega
    · have hnpos : 0 < n := Nat.pos_of_ne_zero hn0
      -- conv1
      obtain ⟨hc1P, hc1A⟩ :=
        layer_forward_relabel m.conv1 hpn hpn hσ hτ hστ hτσ hv hperm
      set r1 := m.conv1.rowOut pos pos edges with hr1
      set h1rA := ((List.range n).map r1).map reluV with hh1rA
      set h1rP := ((List.range n).map fun k => r1 (τ k)).map reluV with hh1rP
      have hA1len : ((List.range n).map r1).length = n := by
        rw [List.length_map, List.length_range]
      have h1rAlen : h1rA.length = n := by
        rw [hh1rA, List.length_map, List.length_map, List.length_range]
      have h1rPeq : h1rP = (List.range n).map fun k => h1rA.getD (τ k) [] := by
        rw [hh1rP, hh1rA, List.map_map]
        refine List.map_congr_left ?_
        intro k hk
        have hk' := List.mem_range.mp hk
        show reluV (r1 (τ k)) = (((List.range n).map r1).map reluV).getD (τ k) []
        rw [getD_map_of_lt reluV (by rw [hA1len]; exact hτ k hk') [] [],
          getD_map_range _ (hτ k hk') []]
      -- conv2
      obtain ⟨hc2P, hc2A⟩ :=
        layer_forward_relabel m.conv2 h1rAlen hpn hσ hτ hστ hτσ hv hperm
      set r2 := m.conv2.rowOut h1rA pos edges with hr2
      set h2rA := ((List.range n).map r2).map reluV with hh2rA
      set h2rP := ((List.range n).map fun k => r2 (τ k)).map reluV with hh2rP
      have hA2len : ((List.range n).map r2).length = n := by
        rw [List.length_map, List.length_range]
      have h2rAlen : h2rA.length = n := by
        rw [hh2rA, List.length_map, List.length_map, List.length_range]
      have h2rPlen : h2rP.length = n := by
        rw [hh2rP, List.length_map, List.length_map, List.length_range]
      -- pointFeatures on both inputs
      have hpfA : m.pointFeatures pos edges = some h2rA := by
        unfold PointNet.pointFeatures
        rw [hc1A, Option.some_bind, ← hh1rA, hc2A]
        rfl
      have hpfP : m.pointFeatures
          ((List.range n).map fun k => pos.getD (τ k) []) edgesP =
          some h2rP := by
        unfold PointNet.pointFeatures
        rw [hc1P, Option.some_bind, ← hh1rP, h1rPeq, hc2P]
        rfl
      -- pooled features agree
      have hpool : globalMaxPool m.conv2.outDim h2rP
          ((List.range n).map fun k => batch.getD (τ k) 0) =
          globalMaxPool m.conv2.outDim h2rA batch := by
        refine globalMaxPool_relabel h2rAlen hbn h2rPlen
          (by rw [List.length_map, List.length_range]) hτ hτσ ?_ ?_
        · intro k hk
          rw [hh2rP, hh2rA,
            getD_map_of_lt reluV
              (by rw [List.length_map, List.length_range]; exact hk) [] [],
            getD_map_of_lt reluV (by rw [hA2len]; exact hτ k hk) [] [],
            getD_map_range _ hk [], getD_map_range _ (hτ k hk) []]
        · intro k hk
          rw [getD_map_range _ hk 0]
      unfold PointNet.forward
      rw [if_pos ⟨by rw [List.length_map, List.length_range,
          List.length_map, List.length_range],
        by rw [List.length_map, List.length_range]; exact hnpos⟩,
        if_pos ⟨hbn.trans hpn.symm, by rw [hbn]; exact hnpos⟩,
        hpfA, hpfP]
      simp only [Option.map_some']
      rw [hpool]

/-- The transposition of indices 0 and 1, its own inverse. -/
def sw : Nat → Nat := fun k => if k = 0 then 1 else if k = 1 then 0 else k

/-- Witness for C2: swapping the two points of a concrete cloud. -/
theorem c2_permutation_invariance_witness :
    wEdges.Perm (wEdges.map (fun e => (sw e.1, sw e.2))) ∧
    ((∃ out outP, demoLayer.forward wH wPos wEdges = some out ∧
        demoLayer.forward [[0, 1, 0], [1, 0, 0]] [[1, 1, 1], [0, 0, 0]]
          wEdges = some outP ∧
        ∀ i, i < 2 → outP.getD (sw i) [] = out.getD i []) ∧
      bigNet.forward [[1, 1, 1], [0, 0, 0]] wEdges [0, 0] =
        bigNet.forward wPos wEdges [0, 0]) :=
  ⟨by decide,
   c2_permutation_invariance demoLayer bigNet 2 wH wPos
     [[0, 1, 0], [1, 0, 0]] [[1, 1, 1], [0, 0, 0]] wEdges wEdges [0, 0]
     [0, 0] sw sw (by decide) (by decide) (by decide) (by decide) (by decide)
     (by decide) (by decide) (by decide) (by decide) (by decide) (by decide)
     (by decide)⟩

/-! ### Helper lemmas for batch independence -/

/-- Locality of one output row: edges whose destinations all lie at or above
`nA` do not affect destinations below `nA`, and only the first `nA` rows of
the node data matter there. -/
theorem rowOut_append_blocks (L : PointNetLayer) {nA : Nat}
    {h1 pos1 hA posA : List Vec} {edgesA extra : List (Nat × Nat)}
    (hExtra : ∀ e ∈ extra, nA ≤ e.2)
    (hAv : validEdges nA edgesA = true)
    (hh : ∀ k, k < nA → h1.getD k [] = hA.getD k [])
    (hp : ∀ k, k < nA → pos1.getD k [] = posA.getD k [])
    {i : Nat} (hi : i < nA) :
    L.rowOut h1 pos1 (edgesA ++ extra) i = L.rowOut hA posA edgesA i := by
  unfold PointNetLayer.rowOut
  rw [List.filter_append]
  have hext : List.filter (fun e => e.2 == i) extra = [] := by
    rw [List.filter_eq_nil_iff]
    intro e he hb
    rw [beq_iff_eq] at hb
    have := hExtra e he
    omega
  rw [hext, List.append_nil]
  congr 1
  refine List.map_congr_left ?_
  intro e he
  have he' : e ∈ edgesA := List.mem_of_mem_filter he
  rw [validEdges, List.all_eq_true] at hAv
  have hb := hAv e he'
  simp only [Bool.and_eq_true, decide_eq_true_eq] at hb
  exact message_congr L (hh e.1 hb.1) (hp e.1 hb.1) (hp e.2 hb.2)

/-- The points whose batch id is `0` in a two-block batch vector are exactly
the first `nA` points. -/
theorem filter_batch_blocks (nA nB : Nat) :
    (List.range (nA + nB)).filter
      (fun k => (List.replicate nA 0 ++ List.replicate nB 1).getD k 0 == 0) =
      List.range nA := by
  rw [List.range_add, List.filter_append]
  have h1 : (List.range nA).filter
      (fun k =>
        (List.replicate nA (0 : Nat) ++ List.replicate nB 1).getD k 0 == 0) =
      List.range nA := by
    rw [List.filter_eq_self]
    intro k hk
    have hk' := List.mem_range.mp hk
    show ((List.replicate nA (0 : Nat) ++ List.replicate nB 1).getD k 0 == 0)
      = true
    rw [List.getD_append _ _ _ _ (by rw [List.length_replicate]; exact hk'),
      getD_replicate_of_lt hk']
    rfl
  have h2 : ((List.range nB).map (fun x => nA + x)).filter
      (fun k =>
        (List.replicate nA (0 : Nat) ++ List.replicate nB 1).getD k 0 == 0) =
      [] := by
    rw [List.filter_eq_nil_iff]
    intro a ha hb
    rw [List.mem_map] at ha
    obtain ⟨x, hx, rfl⟩ := ha
    have hx' := List.mem_range.mp hx
    rw [List.getD_append_right _ _ _ _ (by rw [List.length_replicate]; omega),
      List.length_replicate, show nA + x - nA = x by omega,
      getD_replicate_of_lt hx'] at hb
    exact absurd hb (by decide)
  rw [h1, h2, List.append_nil]

/-! ### C6 -/

/-- C6: for a batch of two objects A (first `nA` points, batch id 0) and B
(shifted by `nA`, batch id 1) with no cross-object edges, the pooled feature
row and the logits row of object A agree with those from running the network
on object A alone. -/
theorem c6_batch_independence (m : PointNet) (nA nB : Nat)
    (posA posB : List Vec) (edgesA edgesB : List (Nat × Nat))
    (hA : posA.length = nA) (hB : posB.length = nB)
    (hnA : 0 < nA) (hnB : 0 < nB)
    (hvA : validEdges nA edgesA = true) (hvB : validEdges nB edgesB = true) :
    ∃ hAll hAlone,
      m.pointFeatures (posA ++ posB)
        (edgesA ++ edgesB.map (fun e => (e.1 + nA, e.2 + nA))) = some hAll ∧
      m.pointFeatures posA edgesA = some hAlone ∧
      (globalMaxPool m.conv2.outDim hAll
          (List.replicate nA 0 ++ List.replicate nB 1)).getD 0 [] =
        (globalMaxPool m.conv2.outDim hAlone (List.replicate nA 0)).getD 0 [] ∧
      m.forward (posA ++ posB)
          (edgesA ++ edgesB.map (fun e => (e.1 + nA, e.2 + nA)))
          (List.replicate nA 0 ++ List.replicate nB 1) =
        some ((globalMaxPool m.conv2.outDim hAll
          (List.replicate nA 0 ++ List.replicate nB 1)).map
            m.classifier.apply) ∧
      m.forward posA edgesA (List.replicate nA 0) =
        some ((globalMaxPool m.conv2.outDim hAlone
          (List.replicate nA 0)).map m.classifier.apply) ∧
      ((globalMaxPool m.conv2.outDim hAll
          (List.replicate nA 0 ++ List.replicate nB 1)).map
            m.classifier.apply).getD 0 [] =
        ((globalMaxPool m.conv2.outDim hAlone
          (List.replicate nA 0)).map m.classifier.apply).getD 0 [] := by
  set pos1 := posA ++ posB with hpos1def
  set E := edgesB.map (fun e => (e.1 + nA, e.2 + nA)) with hEdef
  set edges1 := edgesA ++ E with hedges1def
  set batch1 := List.replicate nA (0 : Nat) ++ List.replicate nB 1
    with hbatch1def
  have hpos1 : pos1.length = nA + nB := by
    rw [hpos1def, List.length_append, hA, hB]
  have hbatch1len : batch1.length = nA + nB := by
    rw [hbatch1def, List.length_append, List.length_replicate,
      List.length_replicate]
  have hvalidA : ∀ e ∈ edgesA, e.1 < nA ∧ e.2 < nA := by
    rw [validEdges, List.all_eq_true] at hvA
    intro e he
    have := hvA e he
    simpa only [Bool.and_eq_true, decide_eq_true_eq] using this
  have hvalidB : ∀ e ∈ edgesB, e.1 < nB ∧ e.2 < nB := by
    rw [validEdges, List.all_eq_true] at hvB
    intro e he
    have := hvB e he
    simpa only [Bool.and_eq_true, decide_eq_true_eq] using this
  have hv1 : validEdges (nA + nB) edges1 = true := by
    rw [validEdges, List.all_eq_true]
    intro e he
    simp only [Bool.and_eq_true, decide_eq_true_eq]
    rcases List.mem_append.mp he with he' | he'
    · have := hvalidA e he'; omega
    · rw [hEdef, List.mem_map] at he'
      obtain ⟨e0, he0, rfl⟩ := he'
      have := hvalidB e0 he0
      simp only
      omega
  have hExtra : ∀ e ∈ E, nA ≤ e.2 := by
    intro e he
    rw [hEdef, List.mem_map] at he
    obtain ⟨e0, -, rfl⟩ := he
    simp only
    omega
  have hposD : ∀ k, k < nA → pos1.getD k [] = posA.getD k [] := by
    intro k hk
    rw [hpos1def]
    exact List.getD_append posA posB [] k (by omega)
  -- conv1
  set r1All := m.conv1.rowOut pos1 pos1 edges1 with hr1All
  set r1A := m.conv1.rowOut posA posA edgesA with hr1A
  have hc1All : m.conv1.forward pos1 pos1 edges1 =
      some ((List.range (nA + nB)).map r1All) := by
    unfold PointNetLayer.forward
    rw [if_pos ⟨rfl, by rw [hpos1]; exact hv1⟩, hpos1]
  have hc1A : m.conv1.forward posA posA edgesA =
      some ((List.range nA).map r1A) := by
    unfold PointNetLayer.forward
    rw [if_pos ⟨rfl, by rw [hA]; exact hvA⟩, hA]
  have hrow1 : ∀ k, k < nA → r1All k = r1A k := by
    intro k hk
    rw [hr1All, hr1A, hedges1def]
    exact rowOut_append_blocks m.conv1 hExtra hvA hposD hposD hk
  set h1rAll := ((List.range (nA + nB)).map r1All).map reluV with hh1rAll
  set h1rA := ((List.range nA).map r1A).map reluV with hh1rA
  have h1rAlllen : h1rAll.length = nA + nB := by
    rw [hh1rAll, List.length_map, List.length_map, List.length_range]
  have h1rAlen : h1rA.length = nA := by
    rw [hh1rA, List.length_map, List.length_map, List.length_range]
  have h1rD : ∀ k, k < nA → h1rAll.getD k [] = h1rA.getD k [] := by
    intro k hk
    rw [hh1rAll, hh1rA,
      getD_map_of_lt reluV
        (by rw [List.length_map, List.length_range]; omega) [] [],
      getD_map_of_lt reluV
        (by rw [List.length_map, List.length_range]; exact hk) [] [],
      getD_map_range _ (by omega : k < nA + nB) [],
      getD_map_range _ hk [], hrow1 k hk]
  -- conv2
  set r2All := m.conv2.rowOut h1rAll pos1 edges1 with hr2All
  set r2A := m.conv2.rowOut h1rA posA edgesA with hr2A
  have hc2All : m.conv2.forward h1rAll pos1 edges1 =
      some ((List.range (nA + nB)).map r2All) := by
    unfold PointNetLayer.forward
    rw [if_pos ⟨h1rAlllen.trans hpos1.symm,
      by rw [h1rAlllen]; exact hv1⟩, h1rAlllen]
  have hc2A : m.conv2.forward h1rA posA edgesA =
      some ((List.range nA).map r2A) := by
    unfold PointNetLayer.forward
    rw [if_pos ⟨h1rAlen.trans hA.symm, by rw [h1rAlen]; exact hvA⟩, h1rAlen]
  have hrow2 : ∀ k, k < nA → r2All k = r2A k := by
    intro k hk
    rw [hr2All, hr2A, hedges1def]
    exact rowOut_append_blocks m.conv2 hExtra hvA h1rD hposD hk
  set h2rAll := ((List.range (nA + nB)).map r2All).map reluV with hh2rAll
  set h2rA := ((List.range nA).map r2A).map reluV with hh2rA
  have h2rAlllen : h2rAll.length = nA + nB := by
    rw [hh2rAll, List.length_map, List.length_map, List.length_range]
  have h2rAlen : h2rA.length = nA := by
    rw [hh2rA, List.length_map, List.length_map, List.length_range]
  have h2rD : ∀ k, k < nA → h2rAll.getD k [] = h2rA.getD k [] := by
    intro k hk
    rw [hh2rAll, hh2rA,
      getD_map_of_lt reluV
        (by rw [List.length_map, List.length_range]; omega) [] [],
      getD_map_of_lt reluV
        (by rw [List.length_map, List.length_range]; exact hk) [] [],
      getD_map_range _ (by omega : k < nA + nB) [],
      getD_map_range _ hk [], hrow2 k hk]
  -- pointFeatures
  have hpfAll : m.pointFeatures pos1 edges1 = some h2rAll := by
    unfold PointNet.pointFeatures
    rw [hc1All, Option.some_bind, ← hh1rAll, hc2All]
    rfl
  have hpfA : m.pointFeatures posA edgesA = some h2rA := by
    unfold PointNet.pointFeatures
    rw [hc1A, Option.some_bind, ← hh1rA, hc2A]
    rfl
  -- pooled rows for object 0 agree
  have hpool0 : (globalMaxPool m.conv2.outDim h2rAll batch1).getD 0 [] =
      (globalMaxPool m.conv2.outDim h2rA (List.replicate nA 0)).getD 0 [] := by
    unfold globalMaxPool
    rw [getD_map_range _ (by omega) [], getD_map_range _ (by omega) []]
    rw [pool_row_zip h2rAll batch1 0 hbatch1len h2rAlllen,
      pool_row_zip h2rA (List.replicate nA 0) 0
        (List.length_replicate nA 0) h2rAlen]
    rw [hbatch1def, filter_batch_blocks nA nB]
    have hfilA : (List.range nA).filter
        (fun k => (List.replicate nA (0 : Nat)).getD k 0 == 0) =
        List.range nA := by
      rw [List.filter_eq_self]
      intro k hk
      rw [getD_replicate_of_lt (List.mem_range.mp hk)]
      rfl
    rw [hfilA]
    exact congrArg _ (List.map_congr_left fun k hk =>
      h2rD k (List.mem_range.mp hk))
  -- forward equations
  have hfAll : m.forward pos1 edges1 batch1 =
      some ((globalMaxPool m.conv2.outDim h2rAll batch1).map
        m.classifier.apply) := by
    unfold PointNet.forward
    rw [if_pos ⟨hbatch1len.trans hpos1.symm, by omega⟩, hpfAll]
    rfl
  have hfA : m.forward posA edgesA (List.replicate nA 0) =
      some ((globalMaxPool m.conv2.outDim h2rA
        (List.replicate nA 0)).map m.classifier.apply) := by
    unfold PointNet.forward
    rw [if_pos ⟨(List.length_replicate nA 0).trans hA.symm,
      by rw [List.length_replicate]; omega⟩, hpfA]
    rfl
  refine ⟨h2rAll, h2rA, hpfAll, hpfA, hpool0, hfAll, hfA, ?_⟩
  rw [getD_map_of_lt m.classifier.apply
      (by unfold globalMaxPool; rw [List.length_map, List.length_range]; omega)
      [] [],
    getD_map_of_lt m.classifier.apply
      (by unfold globalMaxPool; rw [List.length_map, List.length_range]; omega)
      [] [],
    hpool0]

/-- Witness for C6: object A = the concrete two-point cloud, object B = one
extra point with a self-loop edge, no cross-object edges. -/
theorem c6_batch_independence_witness :
    validEdges 2 wEdges = true ∧
    (∃ hAll hAlone,
      bigNet.pointFeatures (wPos ++ [[2, 2, 2]])
        (wEdges ++ [((0 : Nat), (0 : Nat))].map
          (fun e => (e.1 + 2, e.2 + 2))) = some hAll ∧
      bigNet.pointFeatures wPos wEdges = some hAlone ∧
      (globalMaxPool bigNet.conv2.outDim hAll
          (List.replicate 2 0 ++ List.replicate 1 1)).getD 0 [] =
        (globalMaxPool bigNet.conv2.outDim hAlone
          (List.replicate 2 0)).getD 0 [] ∧
      bigNet.forward (wPos ++ [[2, 2, 2]])
          (wEdges ++ [((0 : Nat), (0 : Nat))].map
            (fun e => (e.1 + 2, e.2 + 2)))
          (List.replicate 2 0 ++ List.replicate 1 1) =
        some ((globalMaxPool bigNet.conv2.outDim hAll
          (List.replicate 2 0 ++ List.replicate 1 1)).map
            bigNet.classifier.apply) ∧
      bigNet.forward wPos wEdges (List.replicate 2 0) =
        some ((globalMaxPool bigNet.conv2.outDim hAlone
          (List.replicate 2 0)).map bigNet.classifier.apply) ∧
      ((globalMaxPool bigNet.conv2.outDim hAll
          (List.replicate 2 0 ++ List.replicate 1 1)).map
            bigNet.classifier.apply).getD 0 [] =
        ((globalMaxPool bigNet.conv2.outDim hAlone
          (List.replicate 2 0)).map bigNet.classifier.apply).getD 0 []) :=
  ⟨by decide,
   c6_batch_independence bigNet 2 1 wPos [[2, 2, 2]] wEdges [(0, 0)]
     (by decide) (by decide) (by decide) (by decide) (by decide) (by decide)⟩

end PointNetSpec
